import Mathlib

/-!
Verification of the chunked encoder, timestamp and pooling logic of
`synesis/features/mduo.py` (the Masked Modeling Duo feature extractor).

The 2-D log-mel input of `MDuo.encode_lms` is modelled as a list of
time frames, each frame being the list of its 80 mel-bin values.
Neural components that only transform token values -- the patch
projection (`Conv2d` with kernel = stride = patch size), the
transformer blocks together with the final norm, and the pointwise
addition of positional embeddings -- are abstract functions packaged
in a `Backbone` record; everything that slices, pads, reorders, drops
or counts tokens is transcribed from the source.  Rationals stand in
for the floating-point values where arithmetic matters (timestamps,
mean pooling).
-/

namespace Mduo

/-- Transcribes `n_chunk = (x.shape[-1] + unit_frames - 1) // unit_frames`
(`mduo.py` line 361): the chunk count, computed from the *unpadded*
frame count `n`. -/
def n_chunk (unit n : ℕ) : ℕ := (n + unit - 1) / unit

/-- Transcribes
`pad_frames = (patch_frames - (x.shape[-1] % unit_frames % patch_frames)) % patch_frames`
(`mduo.py` lines 362-364). -/
def pad_frames (patch unit n : ℕ) : ℕ := (patch - n % unit % patch) % patch

/-- Value-level components of `LocalViT`.  `embed` is the patch
projection applied to one `patchF x patchT` cell, `blocks` is the
composition of the transformer blocks with the final layer norm -- a
value transformation that keeps the token count (`blocks_len`), as the
timm blocks do.  `posEmbed` is `self.pos_embed` with the class-token
position first, `addPos` the pointwise `+` of tensors of one token,
`clsToken` is `self.cls_token`, and `avgTok` the mean over a list of
same-shape tokens (used by `average_per_time_frame`).  `imgFreq` and
`imgTime` are `cfg.input_size`, `patchF` and `patchT` are
`cfg.patch_size`. -/
structure Backbone (T E : Type) where
  imgFreq : ℕ
  imgTime : ℕ
  patchF : ℕ
  patchT : ℕ
  embed : List (List T) → E
  posEmbed : List E
  addPos : E → E → E
  clsToken : E
  avgTok : List E → E
  blocks : List E → List E
  blocks_len : ∀ l, (blocks l).length = l.length

variable {α : Type} {β : Type} {γ : Type}

/-- Transcribes `x = torch.nn.functional.pad(x, (0, pad_frames))`
(`mduo.py` line 366): right-pad the time axis with `pad_frames` copies
of the all-zero frame, abstracted as `z`.  When `pad_frames = 0` the
source skips the call, and appending zero frames is then the identity
as well. -/
def padInput (z : List α) (patch unit : ℕ) (x : List (List α)) : List (List α) :=
  x ++ List.replicate (pad_frames patch unit x.length) z

/-- Slices `x[..., i * unit_frames : (i + 1) * unit_frames]` for
`i < k` (`mduo.py` lines 371-374 and 383-386); a Python slice clamps
at the end of the axis. -/
def chunksOf (unit k : ℕ) (y : List (List α)) : List (List (List α)) :=
  (List.range k).map (fun i => (y.drop (i * unit)).take unit)

/-- Chunk sequence consumed by the loop of `encode_lms`: the padded
input sliced into `n_chunk` windows of `unit_frames`, in time order. -/
def mduoChunks (z : List α) (patch unit : ℕ) (x : List (List α)) : List (List (List α)) :=
  chunksOf unit (n_chunk unit x.length) (padInput z patch unit x)

/-- Transcribes `LocalViT.grid_size()[0] = img_size[0] // patch_size[0]`:
the number of frequency patches. -/
def gridF (bk : Backbone α β) : ℕ := bk.imgFreq / bk.patchF

/-- Transcribes `LocalViT.grid_size()[1] = img_size[1] // patch_size[1]`:
the number of time patches of a full (trained-window) chunk. -/
def gridT (bk : Backbone α β) : ℕ := bk.imgTime / bk.patchT

/-- One `patchF x patchT` cell of the input: time frames
`[ti * patchT, (ti + 1) * patchT)` restricted to mel bins
`[fi * patchF, (fi + 1) * patchF)`. -/
def patchAt (pF pT fi ti : ℕ) (x : List (List α)) : List (List α) :=
  ((x.drop (ti * pT)).take pT).map (fun col => (col.drop (fi * pF)).take pF)

/-- Transcribes `PatchEmbed.forward` (`mduo.py` lines 66-71): the
`Conv2d` with kernel = stride = patch size tokenizes the input into a
grid of `f x t` patches (silently truncating trailing frames that do
not fill a patch), then `flatten(2).transpose(1, 2)` lists the tokens
in frequency-major order, index `fi * t + ti`.  PyTorch raises when
the input is narrower than the kernel, hence the error case.  Inputs
are 80-bin rectangular log-mel spectrograms, so the frequency grid is
`imgFreq / patchF` as in `grid_size()`. -/
def patchEmbed (bk : Backbone α β) (x : List (List α)) : Except String (List β) :=
  if x.length < bk.patchT then
    Except.error "Conv2d: input smaller than kernel size"
  else
    Except.ok (((List.range (gridF bk)).map (fun fi =>
      (List.range (x.length / bk.patchT)).map (fun ti =>
        bk.embed (patchAt bk.patchF bk.patchT fi ti x)))).flatten)

/-- Transcribes the positional-embedding truncation of
`LocalViT.forward_encoder` (`mduo.py` lines 106-113): `pe` is
`self.pos_embed[:, 1:, :]`; when the token count `n` is below the
positional-embedding length, the embedding is reshaped to
`(fbins, pe.length / fbins, d)`, each frequency row truncated to the
chunk's `frames = n // fbins` time patches, and flattened back;
otherwise it is used unchanged. -/
def posFor (pe : List β) (fbins n : ℕ) : List β :=
  if n < pe.length then
    ((List.range fbins).map (fun fi =>
      (pe.drop (fi * (pe.length / fbins))).take (n / fbins))).flatten
  else pe

/-- Transcribes `LocalViT.forward_encoder` (`mduo.py` lines 102-126):
patch-embed the chunk, add the (possibly truncated) positional
embedding, prepend the class token (itself offset by its positional
entry `pos_embed[:, :1, :]`) at index 0, and run the transformer
blocks and final norm. -/
def forward_encoder (bk : Backbone α β) (x : List (List α)) : Except String (List β) :=
  match patchEmbed bk x with
  | Except.error e => Except.error e
  | Except.ok toks =>
    let pe := bk.posEmbed.drop 1
    let withPos := List.zipWith bk.addPos toks (posFor pe (gridF bk) toks.length)
    let cls := bk.addPos bk.clsToken (bk.posEmbed.headD bk.clsToken)
    Except.ok (bk.blocks (cls :: withPos))

/-- Per-chunk post-processing of `encode_lms` (`mduo.py` lines
368-389).  `emb[..., 1:, :]` drops the leading class token; flat mode
keeps each remaining token as a row of one token (width `d`); with
`average_per_time_frame` the tokens are regrouped per time patch
(`rearrange "b (f t) d -> b t d f"`) and averaged over frequency;
stacked mode makes one row per time patch out of its `f` frequency
tokens (`rearrange "b (f t) d -> b t (f d)"`, width `f * d`). -/
def chunkRows (bk : Backbone α β) (flat avg : Bool) (l : List β) : List (List β) :=
  let f := gridF bk
  let body := l.drop 1
  if flat then
    if avg then
      (List.range (body.length / f)).map (fun ti =>
        [bk.avgTok ((List.range f).map (fun fi =>
          body.getD (fi * (body.length / f) + ti) bk.clsToken))])
    else
      body.map (fun tok => [tok])
  else
    (List.range (body.length / f)).map (fun ti =>
      (List.range f).map (fun fi =>
        body.getD (fi * (body.length / f) + ti) bk.clsToken))

/-- The loop of `encode_lms`: encode each chunk with
`forward_encoder`, post-process it with `chunkRows`, and concatenate
the per-chunk rows along the time axis (`torch.cat(embeddings, axis=-2)`). -/
def encodeChunks (bk : Backbone α β) (flat avg : Bool) :
    List (List (List α)) → Except String (List (List β))
  | [] => Except.ok []
  | c :: cs =>
    match forward_encoder bk c, encodeChunks bk flat avg cs with
    | Except.ok l, Except.ok rest => Except.ok (chunkRows bk flat avg l ++ rest)
    | Except.error e, _ => Except.error e
    | Except.ok _, Except.error e => Except.error e

/-- Transcribes `MDuo.encode_lms` (`mduo.py` lines 356-392): pad, cut
into `n_chunk` slices, encode each, drop the class token, aggregate
per the `flat_features` / `average_per_time_frame` flags, concatenate
along time.  `torch.cat` raises on an empty list, which happens
exactly when there is no chunk. -/
def encode_lms (bk : Backbone α β) (z : List α) (flat avg : Bool)
    (x : List (List α)) : Except String (List (List β)) :=
  let chunks := mduoChunks z bk.patchT bk.imgTime x
  if chunks.isEmpty then
    Except.error "torch.cat: expected a non-empty list of Tensors"
  else encodeChunks bk flat avg chunks

/-- Transcribes the feature-dimension computation of `MDuo.__init__`
(`mduo.py` lines 294-300):
`feature_d = d * (1 if flat_features else input_size[0] // patch_size[0])`. -/
def feature_d (flat : Bool) (d inF pF : ℕ) : ℕ := d * (if flat then 1 else inF / pF)

/-- One timestamp row of `get_timestamps` (`mduo.py` lines 245-252):
`step = (audio_len / sample_rate) / x_len * 1000` and entry `i` is
`step * i`. -/
def ts_row (sr : ℚ) (audioLen xLen : ℕ) : List ℚ :=
  (List.range xLen).map
    (fun i : ℕ => ((audioLen : ℚ) / sr / (xLen : ℚ) * 1000) * (i : ℚ))

/-- Transcribes `get_timestamps` (`mduo.py` lines 245-252): the row of
timestamps built from the first item's audio length and the first
item's output row count, repeated for every item of the batch
(`ts.repeat(len(batch_audio), 1)`). -/
def get_timestamps (sr : ℚ) (batch_audio : List (List ℚ)) (x : List (List γ)) :
    List (List ℚ) :=
  List.replicate batch_audio.length
    (ts_row sr (batch_audio.headD []).length (x.headD []).length)

/-- Transcribes `MDuo.get_timestamp_embeddings` (`mduo.py` lines
409-412) given the already-encoded `x = self.encode(batch_audio, average_per_time_frame=True)`
(the mel front end is external): it returns `x` paired with
`get_timestamps(self.cfg, batch_audio, x)`. -/
def get_timestamp_embeddings (sr : ℚ) (batch_audio : List (List ℚ))
    (x : List (List γ)) : List (List γ) × List (List ℚ) :=
  (x, get_timestamps sr batch_audio x)

/-- Mean over the time axis (`x.mean(dim=1)` on a `(batch, T, D)`
tensor, per item): entry `d` is the average of column `d` over the
item's rows. -/
def meanTime (item : List (List ℚ)) : List ℚ :=
  (List.range (item.headD []).length).map
    (fun d => (item.map (fun row => row.getD d 0)).sum / (item.length : ℚ))

/-- Result of `MDuo.forward`: either one pooled vector per item or the
time-resolved sequence. -/
inductive FwdOut (γ : Type) where
  | pooled : List (List γ) → FwdOut γ
  | seq : List (List (List γ)) → FwdOut γ

/-- Transcribes the post-processing of `MDuo.forward` (`mduo.py` lines
398-402) applied to the encoded batch `x`: when
`self.extract_kws.get("pooled", True)` holds, the sequence is
mean-pooled over time (`x = x.mean(dim=1)`), otherwise returned as
is.  `extract_kws` is modelled as an association list. -/
def MDuo_forward (extract_kws : List (String × Bool)) (x : List (List (List ℚ))) :
    FwdOut ℚ :=
  if (extract_kws.lookup "pooled").getD true then
    FwdOut.pooled (x.map meanTime)
  else FwdOut.seq x

/-- Concrete backbone instance used to evaluate the model on inputs:
80 mel bins, 16 x 16 patches, a trained window of `unit` frames, the
zero patch projection, zero positional embedding of the well-formed
length, addition for `addPos`, the identity for the blocks. -/
def testB (unit : ℕ) : Backbone ℕ ℕ where
  imgFreq := 80
  imgTime := unit
  patchF := 16
  patchT := 16
  embed := fun _ => 0
  posEmbed := List.replicate (1 + 5 * (unit / 16)) 0
  addPos := fun a b => a + b
  clsToken := 0
  avgTok := fun l => l.sum
  blocks := fun l => l
  blocks_len := fun _ => rfl

/-- Concrete rectangular 80-bin input with `w` time frames. -/
def xtest (w : ℕ) : List (List ℕ) := List.replicate w (List.replicate 80 0)

section Lemmas

variable {δ : Type}

/-- Joining the `k` successive width-`unit` slices of a list yields its
first `k * unit` elements. -/
theorem flatten_chunksOf (unit : ℕ) (y : List δ) :
    ∀ k : ℕ, ((List.range k).map (fun i => (y.drop (i * unit)).take unit)).flatten
      = y.take (k * unit) := by
  intro k
  induction k with
  | zero => simp
  | succ k ih =>
    rw [List.range_succ, List.map_append, List.flatten_append, ih]
    simp only [List.map_cons, List.map_nil, List.flatten_cons, List.flatten_nil,
      List.append_nil]
    rw [Nat.succ_mul, List.take_add]

/-- Decomposition of `pad_frames` under the precondition that
`unit_frames` is a multiple of `patch_frames`: the inner
`% unit % patch` collapses to `% patch`. -/
theorem pad_frames_of_dvd (patch unit n : ℕ) (hd : patch ∣ unit) :
    pad_frames patch unit n = (patch - n % patch) % patch := by
  unfold pad_frames
  rw [Nat.mod_mod_of_dvd n hd]

/-- Padding amount is strictly below `patch` and completes `n` to a
multiple of `patch`. -/
theorem pad_frames_spec (patch n : ℕ) (hp : 0 < patch) :
    (patch - n % patch) % patch < patch ∧ patch ∣ (n + (patch - n % patch) % patch) := by
  have hr : n % patch < patch := Nat.mod_lt _ hp
  constructor
  · exact Nat.mod_lt _ hp
  · rcases Nat.eq_zero_or_pos (n % patch) with h0 | h0
    · rw [h0, Nat.sub_zero, Nat.mod_self, Nat.add_zero]
      exact Nat.dvd_of_mod_eq_zero h0
    · have hlt : patch - n % patch < patch := by omega
      rw [Nat.mod_eq_of_lt hlt]
      have hq := Nat.div_add_mod n patch
      refine ⟨n / patch + 1, ?_⟩
      rw [Nat.mul_add, Nat.mul_one]
      omega

/-- The padded length never exceeds `n_chunk * unit_frames`, so the
chunk slices cover the whole padded input. -/
theorem padded_le_chunks (patch unit n : ℕ) (hu : 0 < unit) (hp : 0 < patch)
    (hd : patch ∣ unit) :
    n + pad_frames patch unit n ≤ n_chunk unit n * unit := by
  obtain ⟨m, hm⟩ := hd
  have hq := Nat.div_add_mod n unit
  set q := n / unit with hqdef
  set r := n % unit with hrdef
  have hr : r < unit := Nat.mod_lt _ hu
  have hpad : pad_frames patch unit n = (patch - r % patch) % patch := by
    unfold pad_frames; rw [hrdef]
  rcases Nat.eq_zero_or_pos r with h0 | h0
  · -- the input length is an exact multiple of the window: no padding
    have hk : n_chunk unit n = q := by
      unfold n_chunk
      have : n + unit - 1 = unit * q + (unit - 1) := by omega
      rw [this, Nat.mul_add_div hu]
      have : (unit - 1) / unit = 0 := Nat.div_eq_of_lt (by omega)
      omega
    have hpad0 : pad_frames patch unit n = 0 := by
      rw [hpad, h0, Nat.zero_mod, Nat.sub_zero, Nat.mod_self]
    rw [hk, hpad0, Nat.mul_comm q unit]
    omega
  · -- a partial final window of r frames, rounded up to a patch multiple
    have hk : n_chunk unit n = q + 1 := by
      unfold n_chunk
      have : n + unit - 1 = unit * (q + 1) + (r - 1) := by
        rw [Nat.mul_add, Nat.mul_one]; omega
      rw [this, Nat.mul_add_div hu]
      have : (r - 1) / unit = 0 := Nat.div_eq_of_lt (by omega)
      omega
    have hkey : r + pad_frames patch unit n ≤ unit := by
      rw [hpad]
      have hs := Nat.div_add_mod r patch
      set s := r % patch with hsdef
      rcases Nat.eq_zero_or_pos s with hs0 | hs0
      · rw [hs0, Nat.sub_zero, Nat.mod_self]; omega
      · have hslt : s < patch := Nat.mod_lt _ hp
        rw [Nat.mod_eq_of_lt (by omega)]
        have hrdiv : r / patch < m := by
          have : r < m * patch := by rw [Nat.mul_comm, ← hm]; omega
          exact (Nat.div_lt_iff_lt_mul hp).mpr this
        have : r + (patch - s) = patch * (r / patch + 1) := by
          rw [Nat.mul_add, Nat.mul_one]; omega
        rw [this]
        calc patch * (r / patch + 1) ≤ patch * m := by
              exact Nat.mul_le_mul_left patch (by omega)
          _ = unit := hm.symm
    rw [hk]
    have : (q + 1) * unit = unit * q + unit := by ring
    omega

/-- With at least one frame and in particular one chunk, the final
chunk slice still holds at least `patch` frames: the window start
`(k - 1) * unit` plus one patch fits inside the padded input. -/
theorem last_chunk_ge_patch (patch unit n : ℕ) (hu : 0 < unit) (hp : 0 < patch)
    (hd : patch ∣ unit) (hn : 0 < n) :
    (n_chunk unit n - 1) * unit + patch ≤ n + pad_frames patch unit n := by
  have hpu : patch ≤ unit := Nat.le_of_dvd hu hd
  have hq := Nat.div_add_mod n unit
  set q := n / unit with hqdef
  set r := n % unit with hrdef
  have hr : r < unit := Nat.mod_lt _ hu
  have hpad : pad_frames patch unit n = (patch - r % patch) % patch := by
    unfold pad_frames; rw [hrdef]
  rcases Nat.eq_zero_or_pos r with h0 | h0
  · have hq1 : 0 < q := by
      rcases Nat.eq_zero_or_pos q with hq0 | hq0
      · rw [hq0, Nat.mul_zero] at hq
        omega
      · exact hq0
    have hk : n_chunk unit n = q := by
      unfold n_chunk
      have : n + unit - 1 = unit * q + (unit - 1) := by omega
      rw [this, Nat.mul_add_div hu]
      have : (unit - 1) / unit = 0 := Nat.div_eq_of_lt (by omega)
      omega
    have hpad0 : pad_frames patch unit n = 0 := by
      rw [hpad, h0, Nat.zero_mod, Nat.sub_zero, Nat.mod_self]
    rw [hk, hpad0]
    have h1 : (q - 1) * unit + unit = q * unit := by
      have h2 : q - 1 + 1 = q := by omega
      calc (q - 1) * unit + unit = (q - 1 + 1) * unit := by ring
        _ = q * unit := by rw [h2]
    have h3 : unit * q = q * unit := Nat.mul_comm _ _
    omega
  · have hk : n_chunk unit n = q + 1 := by
      unfold n_chunk
      have : n + unit - 1 = unit * (q + 1) + (r - 1) := by
        rw [Nat.mul_add, Nat.mul_one]; omega
      rw [this, Nat.mul_add_div hu]
      have : (r - 1) / unit = 0 := Nat.div_eq_of_lt (by omega)
      omega
    have hkey : patch ≤ r + pad_frames patch unit n := by
      rw [hpad]
      have hs := Nat.div_add_mod r patch
      set s := r % patch with hsdef
      rcases Nat.eq_zero_or_pos s with hs0 | hs0
      · have hr0 : r % patch = 0 := by omega
        have hdr : patch ∣ r := Nat.dvd_of_mod_eq_zero hr0
        have := Nat.le_of_dvd h0 hdr
        rw [hs0, Nat.sub_zero, Nat.mod_self]; omega
      · have hslt : s < patch := Nat.mod_lt _ hp
        rw [Nat.mod_eq_of_lt (by omega)]
        omega
    rw [hk]
    have : (q + 1 - 1) * unit = unit * q := by
      simp [Nat.mul_comm]
    omega

end Lemmas

/-- C1: `encode_lms` splits the time axis into exactly
`ceil(total_frames / unit_frames)` contiguous chunks taken in time
order (chunk `i` is the slice of the padded input starting at
`i * unit_frames`); for an input of 1000 frames with
`unit_frames = 400` and `patch_frames = 16` it produces 3 chunks whose
frame spans are 400, 400 and 208 (the final 200 content frames plus 8
zero-padding frames). -/
theorem C1_chunk_count_and_spans {α : Type} (z : List α) (unit patch : ℕ)
    (hu : 0 < unit) (x : List (List α)) :
    (mduoChunks z patch unit x).length = (x.length + unit - 1) / unit
    ∧ (∀ i, i < n_chunk unit x.length →
        (mduoChunks z patch unit x).getD i []
          = ((padInput z patch unit x).drop (i * unit)).take unit)
    ∧ (x.length = 1000 → unit = 400 → patch = 16 →
        (mduoChunks z patch unit x).map List.length = [400, 400, 208]
        ∧ padInput z patch unit x = x ++ List.replicate 8 z) := by
  refine ⟨?_, ?_, ?_⟩
  · simp [mduoChunks, chunksOf, n_chunk]
  · intro i hi
    unfold mduoChunks chunksOf
    rw [List.getD_eq_getElem _ _ (by simpa [n_chunk] using hi)]
    rw [List.getElem_map, List.getElem_range]
  · intro hx h400 h16
    subst h400 h16
    have hpad : pad_frames 16 400 x.length = 8 := by rw [hx]; rfl
    have hlen : (padInput z 16 400 x).length = 1008 := by
      unfold padInput
      rw [List.length_append, List.length_replicate, hx]
      rfl
    have hk : n_chunk 400 x.length = 3 := by rw [hx]; rfl
    constructor
    · unfold mduoChunks chunksOf
      rw [hk, List.map_map]
      have h3 : List.range 3 = [0, 1, 2] := rfl
      rw [h3]
      simp [List.length_take, List.length_drop, hlen]
    · unfold padInput
      rw [hpad]

/-- Closed-form instance discharging the hypotheses of
`C1_chunk_count_and_spans` at `unit = 400`, `patch = 16` and a
concrete 1000-frame input. -/
theorem C1_witness :
    0 < 400
    ∧ ((mduoChunks ([] : List ℕ) 16 400 (List.replicate 1000 [])).length
          = (( List.replicate 1000 ([] : List ℕ)).length + 400 - 1) / 400
        ∧ (∀ i, i < n_chunk 400 (List.replicate 1000 ([] : List ℕ)).length →
            (mduoChunks ([] : List ℕ) 16 400 (List.replicate 1000 [])).getD i []
              = ((padInput ([] : List ℕ) 16 400 (List.replicate 1000 [])).drop (i * 400)).take 400)
        ∧ ((List.replicate 1000 ([] : List ℕ)).length = 1000 → 400 = 400 → 16 = 16 →
            (mduoChunks ([] : List ℕ) 16 400 (List.replicate 1000 [])).map List.length
                = [400, 400, 208]
            ∧ padInput ([] : List ℕ) 16 400 (List.replicate 1000 [])
                = List.replicate 1000 [] ++ List.replicate 8 [])) :=
  ⟨by decide, C1_chunk_count_and_spans ([] : List ℕ) 400 16 (by decide)
    (List.replicate 1000 [])⟩

/-- C2: when the frame count does not divide evenly into
`patch_frames`, `encode_lms` right-pads with zero frames to the next
multiple of `patch_frames` (the pad amount is
`(patch - n % patch) % patch` under the precondition
`patch_frames ∣ unit_frames`); when it divides evenly, the input is
unchanged. -/
theorem C2_padding {α : Type} (z : List α) (patch unit : ℕ) (x : List (List α))
    (hp : 0 < patch) (hd : patch ∣ unit) :
    padInput z patch unit x
        = x ++ List.replicate ((patch - x.length % patch) % patch) z
    ∧ patch ∣ (padInput z patch unit x).length
    ∧ (padInput z patch unit x).length < x.length + patch
    ∧ (patch ∣ x.length → padInput z patch unit x = x) := by
  have hpf := pad_frames_of_dvd patch unit x.length hd
  have hspec := pad_frames_spec patch x.length hp
  refine ⟨?_, ?_, ?_, ?_⟩
  · unfold padInput; rw [hpf]
  · unfold padInput
    rw [List.length_append, List.length_replicate, hpf]
    exact hspec.2
  · unfold padInput
    rw [List.length_append, List.length_replicate, hpf]
    have := hspec.1
    omega
  · intro hdx
    obtain ⟨q, hq⟩ := hdx
    have h0 : x.length % patch = 0 := by rw [hq]; exact Nat.mul_mod_right patch q
    unfold padInput
    rw [hpf, h0, Nat.sub_zero, Nat.mod_self]
    simp

/-- Closed-form instance discharging the hypotheses of `C2_padding` at
`patch = 16`, `unit = 400` and a concrete 32-frame input. -/
theorem C2_witness :
    (0 < 16 ∧ (16 : ℕ) ∣ 400)
    ∧ padInput ([] : List ℕ) 16 400 (List.replicate 32 [])
        = List.replicate 32 []
          ++ List.replicate ((16 - (List.replicate 32 ([] : List ℕ)).length % 16) % 16) [] :=
  ⟨⟨by decide, by decide⟩,
    (C2_padding ([] : List ℕ) 16 400 (List.replicate 32 []) (by decide) (by decide)).1⟩

/-- C9: under the precondition that `unit_frames` is a multiple of
`patch_frames`, the `n_chunk` slices (the chunk count being computed
from the unpadded frame count before padding) still exactly cover the
padded input: `n_chunk * unit_frames` is at least the padded length,
and the concatenation of the chunk slices is exactly the padded input,
so no frame is dropped or encoded twice. -/
theorem C9_chunks_cover {α : Type} (z : List α) (patch unit : ℕ)
    (hu : 0 < unit) (hp : 0 < patch) (hd : patch ∣ unit) (x : List (List α)) :
    (padInput z patch unit x).length ≤ n_chunk unit x.length * unit
    ∧ (mduoChunks z patch unit x).flatten = padInput z patch unit x := by
  have hlen : (padInput z patch unit x).length
      = x.length + pad_frames patch unit x.length := by
    unfold padInput; rw [List.length_append, List.length_replicate]
  have hle := padded_le_chunks patch unit x.length hu hp hd
  constructor
  · omega
  · unfold mduoChunks chunksOf
    rw [flatten_chunksOf]
    exact List.take_of_length_le (by omega)

/-- Closed-form instance discharging the hypotheses of
`C9_chunks_cover` at `unit = 400`, `patch = 16` and a concrete
1000-frame input. -/
theorem C9_witness :
    (0 < 400 ∧ 0 < 16 ∧ (16 : ℕ) ∣ 400)
    ∧ ((padInput ([] : List ℕ) 16 400 (List.replicate 1000 [])).length
        ≤ n_chunk 400 (List.replicate 1000 ([] : List ℕ)).length * 400
      ∧ (mduoChunks ([] : List ℕ) 16 400 (List.replicate 1000 [])).flatten
          = padInput ([] : List ℕ) 16 400 (List.replicate 1000 [])) :=
  ⟨⟨by decide, by decide, by decide⟩,
    C9_chunks_cover ([] : List ℕ) 16 400 (by decide) (by decide) (by decide)
      (List.replicate 1000 [])⟩

section TokenLemmas

variable {α : Type} {β : Type} {δ : Type}

/-- Length of the concatenation of `f` blocks of uniform length `t`. -/
theorem flatten_map_range_length (f t : ℕ) (g : ℕ → List δ)
    (h : ∀ i, i < f → (g i).length = t) :
    (((List.range f).map g).flatten).length = f * t := by
  induction f with
  | zero => simp
  | succ f ih =>
    rw [List.range_succ, List.map_append, List.flatten_append, List.length_append,
      ih (fun i hi => h i (by omega))]
    simp only [List.map_cons, List.map_nil, List.flatten_cons, List.flatten_nil,
      List.append_nil]
    rw [h f (by omega), Nat.succ_mul]

/-- Indexing into the concatenation of `f` blocks of uniform length
`t`: position `fi * t + ti` lands in block `fi` at offset `ti`. -/
theorem flatten_map_range_getD (t : ℕ) (g : ℕ → List δ) (d : δ) :
    ∀ f fi ti, (∀ i, i < f → (g i).length = t) → fi < f → ti < t →
      (((List.range f).map g).flatten).getD (fi * t + ti) d = (g fi).getD ti d := by
  intro f
  induction f with
  | zero => intro fi ti _ hfi _; omega
  | succ f ih =>
    intro fi ti h hfi hti
    rw [List.range_succ, List.map_append, List.flatten_append]
    have hJ : (((List.range f).map g).flatten).length = f * t :=
      flatten_map_range_length f t g (fun i hi => h i (by omega))
    rcases Nat.lt_or_ge fi f with hlt | hge
    · rw [List.getD_append _ _ _ _ ?_]
      · exact ih fi ti (fun i hi => h i (by omega)) hlt hti
      · rw [hJ]
        calc fi * t + ti < fi * t + t := by omega
          _ = (fi + 1) * t := by ring
          _ ≤ f * t := Nat.mul_le_mul_right t (by omega)
    · have hfe : fi = f := by omega
      subst hfe
      rw [List.getD_append_right _ _ _ _ (by rw [hJ]; omega), hJ,
        Nat.add_sub_cancel_left]
      simp

/-- The patch embedding succeeds on any chunk at least one patch wide
and yields the `gridF * (width / patchT)` frequency-major token
grid. -/
theorem patchEmbed_ok (bk : Backbone α β) (c : List (List α))
    (hc : bk.patchT ≤ c.length) :
    ∃ toks, patchEmbed bk c = Except.ok toks
      ∧ toks.length = gridF bk * (c.length / bk.patchT) := by
  unfold patchEmbed
  rw [if_neg (by omega)]
  refine ⟨_, rfl, ?_⟩
  exact flatten_map_range_length (gridF bk) (c.length / bk.patchT) _
    (fun i _ => by simp)

/-- Length of the (possibly truncated) positional embedding used for a
chunk with `t` time patches: exactly the chunk's own `f * t` token
count. -/
theorem posFor_length (pe : List β) (f T t : ℕ) (hf : 0 < f)
    (hpe : pe.length = f * T) (ht : t ≤ T) :
    (posFor pe f (f * t)).length = f * t := by
  unfold posFor
  rcases Nat.lt_or_ge (f * t) pe.length with hlt | hge
  · rw [if_pos hlt]
    have hT' : pe.length / f = T := by rw [hpe, Nat.mul_div_cancel_left T hf]
    have hfr : f * t / f = t := Nat.mul_div_cancel_left t hf
    rw [hT', hfr]
    apply flatten_map_range_length
    intro i hi
    rw [List.length_take, List.length_drop, hpe]
    have h1 : (i + 1) * T ≤ f * T := Nat.mul_le_mul_right T (by omega)
    have h2 : (i + 1) * T = i * T + T := by ring
    omega
  · rw [if_neg (by omega)]
    have hTt : f * T ≤ f * t := by omega
    have : T ≤ t := Nat.le_of_mul_le_mul_left hTt hf
    have het : t = T := le_antisymm ht this
    rw [hpe, het]

/-- Entries of the truncated positional embedding: token `(fi, ti)` of
a short chunk receives the positional entry of the same grid cell of
the full window, `pe[fi * T + ti]`. -/
theorem posFor_getD (pe : List β) (f T t : ℕ) (d : β) (hf : 0 < f)
    (hpe : pe.length = f * T) (ht : t < T) (fi ti : ℕ) (hfi : fi < f)
    (hti : ti < t) :
    (posFor pe f (f * t)).getD (fi * t + ti) d = pe.getD (fi * T + ti) d := by
  unfold posFor
  have hlt : f * t < pe.length := by
    rw [hpe]
    have h1 : f * (t + 1) ≤ f * T := Nat.mul_le_mul_left f ht
    have h2 : f * (t + 1) = f * t + f := by ring
    omega
  rw [if_pos hlt]
  have hT' : pe.length / f = T := by rw [hpe, Nat.mul_div_cancel_left T hf]
  have hfr : f * t / f = t := Nat.mul_div_cancel_left t hf
  rw [hT', hfr]
  have hblock : ∀ i, i < f → ((pe.drop (i * T)).take t).length = t := by
    intro i hi
    rw [List.length_take, List.length_drop, hpe]
    have h1 : (i + 1) * T ≤ f * T := Nat.mul_le_mul_right T (by omega)
    have h2 : (i + 1) * T = i * T + T := by ring
    omega
  rw [flatten_map_range_getD t _ d f fi ti hblock hfi hti]
  have hidx : fi * T + ti < pe.length := by
    rw [hpe]
    have h1 : (fi + 1) * T ≤ f * T := Nat.mul_le_mul_right T (by omega)
    have h2 : (fi + 1) * T = fi * T + T := by ring
    omega
  have hidx2 : ti < (pe.drop (fi * T)).length := by
    rw [List.length_drop, hpe]
    have h1 : (fi + 1) * T ≤ f * T := Nat.mul_le_mul_right T (by omega)
    have h2 : (fi + 1) * T = fi * T + T := by ring
    omega
  rw [List.getD_eq_getElem _ _ (by rw [List.length_take]; omega),
    List.getD_eq_getElem _ _ hidx]
  rw [List.getElem_take]
  rw [List.getElem_drop]

/-- The encoder succeeds on any chunk at least one patch wide whose
time-patch count fits the trained window, and returns `1 + f * t`
tokens: the class token prepended at index 0 plus the chunk's own
patch tokens, with nothing padded up to the window size. -/
theorem forward_encoder_ok (bk : Backbone α β) (c : List (List α))
    (hpe : bk.posEmbed.length = 1 + gridF bk * gridT bk) (hf : 0 < gridF bk)
    (hc : bk.patchT ≤ c.length) (ht : c.length / bk.patchT ≤ gridT bk) :
    ∃ l, forward_encoder bk c = Except.ok l
      ∧ l.length = 1 + gridF bk * (c.length / bk.patchT) := by
  obtain ⟨toks, hok, hlen⟩ := patchEmbed_ok bk c hc
  unfold forward_encoder
  rw [hok]
  refine ⟨_, rfl, ?_⟩
  rw [bk.blocks_len, List.length_cons, List.length_zipWith]
  have hpl : (posFor (bk.posEmbed.drop 1) (gridF bk) toks.length).length
      = gridF bk * (c.length / bk.patchT) := by
    rw [hlen]
    exact posFor_length _ _ (gridT bk) _ hf (by rw [List.length_drop, hpe]; omega) ht
  rw [hpl, hlen]
  omega

/-- The per-chunk row construction never looks at the token at index
0: the class token is discarded. -/
theorem chunkRows_head_indep (bk : Backbone α β) (flat avg : Bool)
    (a b : β) (l : List β) :
    chunkRows bk flat avg (a :: l) = chunkRows bk flat avg (b :: l) := rfl

/-- Row count and row width produced from one encoded chunk of
`1 + f * t` tokens (without time-frame averaging): flat mode yields
`f * t` rows of one token, stacked mode `t` rows of `f` tokens. -/
theorem chunkRows_length (bk : Backbone α β) (flat : Bool) (l : List β)
    (t : ℕ) (hf : 0 < gridF bk) (hl : l.length = 1 + gridF bk * t) :
    (chunkRows bk flat false l).length = (if flat then gridF bk * t else t)
    ∧ ∀ r ∈ chunkRows bk flat false l, r.length = (if flat then 1 else gridF bk) := by
  have hbody : (l.drop 1).length = gridF bk * t := by
    rw [List.length_drop]; omega
  have hdivt : (l.drop 1).length / gridF bk = t := by
    rw [hbody, Nat.mul_div_cancel_left t hf]
  unfold chunkRows
  cases flat with
  | true =>
    constructor
    · simp
      omega
    · intro r hr
      simp only [if_true] at hr
      simp only [Bool.false_eq_true, if_false, List.mem_map] at hr
      obtain ⟨tok, _, htok⟩ := hr
      simp [← htok]
  | false =>
    constructor
    · simp
      rw [List.length_drop] at hdivt
      exact hdivt
    · intro r hr
      simp only [Bool.false_eq_true, if_false, List.mem_map] at hr
      obtain ⟨ti, _, hti⟩ := hr
      simp [← hti]

/-- Every chunk produced by `mduoChunks` on a nonempty input under the
divisibility precondition is between one patch and one window wide. -/
theorem mduoChunks_width {α : Type} (z : List α) (patch unit : ℕ)
    (hu : 0 < unit) (hp : 0 < patch) (hd : patch ∣ unit) (x : List (List α))
    (hx : x ≠ []) :
    ∀ c ∈ mduoChunks z patch unit x, patch ≤ c.length ∧ c.length ≤ unit := by
  intro c hc
  unfold mduoChunks chunksOf at hc
  rw [List.mem_map] at hc
  obtain ⟨i, hi, hslice⟩ := hc
  rw [List.mem_range] at hi
  subst hslice
  have hP : (padInput z patch unit x).length
      = x.length + pad_frames patch unit x.length := by
    unfold padInput; rw [List.length_append, List.length_replicate]
  constructor
  · rw [List.length_take, List.length_drop]
    have hpu : patch ≤ unit := Nat.le_of_dvd hu hd
    have hn : 0 < x.length := List.length_pos.mpr hx
    have hlast := last_chunk_ge_patch patch unit x.length hu hp hd hn
    have hik : i ≤ n_chunk unit x.length - 1 := by omega
    have hmul : i * unit ≤ (n_chunk unit x.length - 1) * unit :=
      Nat.mul_le_mul_right unit hik
    omega
  · rw [List.length_take]; omega

/-- The chunk loop succeeds whenever every chunk is at least one patch
wide (the only failure point is the patch convolution). -/
theorem encodeChunks_ok (bk : Backbone α β) (flat avg : Bool) :
    ∀ chunks : List (List (List α)),
      (∀ c ∈ chunks, bk.patchT ≤ c.length) →
      ∃ rows, encodeChunks bk flat avg chunks = Except.ok rows := by
  intro chunks
  induction chunks with
  | nil => intro _; exact ⟨[], rfl⟩
  | cons c cs ih =>
    intro h
    have hc := h c (by simp)
    obtain ⟨toks, hok, _⟩ := patchEmbed_ok bk c hc
    have hfe : forward_encoder bk c
        = Except.ok (bk.blocks
            (bk.addPos bk.clsToken ((bk.posEmbed).headD bk.clsToken)
              :: List.zipWith bk.addPos toks
                   (posFor (bk.posEmbed.drop 1) (gridF bk) toks.length))) := by
      unfold forward_encoder
      rw [hok]
    obtain ⟨rest, hrest⟩ := ih (fun d hd => h d (by simp [hd]))
    exact ⟨_, by rw [encodeChunks, hfe, hrest]⟩

/-- Shape of the rows produced by the chunk loop (no averaging): the
class token of each chunk is dropped, each chunk contributes its
`f * t` patch tokens as `f * t` flat rows or `t` stacked rows, and the
contributions are concatenated in chunk order. -/
theorem encodeChunks_length (bk : Backbone α β) (flat : Bool)
    (hpe : bk.posEmbed.length = 1 + gridF bk * gridT bk) (hf : 0 < gridF bk) :
    ∀ (chunks : List (List (List α))) (rows : List (List β)),
      (∀ c ∈ chunks, bk.patchT ≤ c.length ∧ c.length / bk.patchT ≤ gridT bk) →
      encodeChunks bk flat false chunks = Except.ok rows →
      rows.length = (chunks.map (fun c =>
          if flat then gridF bk * (c.length / bk.patchT)
          else c.length / bk.patchT)).sum
      ∧ ∀ r ∈ rows, r.length = (if flat then 1 else gridF bk) := by
  intro chunks
  induction chunks with
  | nil =>
    intro rows _ hok
    rw [encodeChunks] at hok
    cases hok
    simp
  | cons c cs ih =>
    intro rows h hok
    obtain ⟨hc, ht⟩ := h c (by simp)
    obtain ⟨l, hl, hlen⟩ := forward_encoder_ok bk c hpe hf hc ht
    rw [encodeChunks, hl] at hok
    rcases hrec : encodeChunks bk flat false cs with e | rest
    · rw [hrec] at hok; cases hok
    · rw [hrec] at hok
      cases hok
      obtain ⟨ihlen, ihmem⟩ := ih rest (fun d hd => h d (by simp [hd])) hrec
      obtain ⟨hclen, hcmem⟩ := chunkRows_length bk flat l (c.length / bk.patchT)
        hf hlen
      constructor
      · rw [List.length_append, hclen, ihlen, List.map_cons, List.sum_cons]
      · intro r hr
        rcases List.mem_append.mp hr with hr | hr
        · exact hcmem r hr
        · exact ihmem r hr

/-- On a nonempty input with a positive window the chunk list is
nonempty. -/
theorem mduoChunks_ne_nil {α : Type} (z : List α) (patch unit : ℕ)
    (hu : 0 < unit) (x : List (List α)) (hx : x ≠ []) :
    (mduoChunks z patch unit x).isEmpty = false := by
  have hn : 0 < x.length := List.length_pos.mpr hx
  have hk : 0 < n_chunk unit x.length := by
    unfold n_chunk
    exact Nat.div_pos (by omega) hu
  have hlen : 0 < (mduoChunks z patch unit x).length := by
    unfold mduoChunks chunksOf
    simpa using hk
  rcases hml : mduoChunks z patch unit x with _ | ⟨c, cs⟩
  · rw [hml] at hlen; simp at hlen
  · rfl

end TokenLemmas

/-- C3 as stated is false on the code: in flat mode (without
time-frame averaging) every frequency-patch token is a separate row,
so the row count is `frequency-patches x (sum of time-patches)`, not
`sum of time-patches`.  Concretely, one 32-frame chunk with an 80 x 16
frequency grid has 2 time patches but the flat output has
`5 * 2 = 10` rows. -/
theorem C3_cex :
    (encode_lms (testB 32) [] true false (xtest 32)).map List.length = Except.ok 10
    ∧ ((mduoChunks ([] : List ℕ) 16 32 (xtest 32)).map
        (fun c => c.length / 16)).sum = 2
    ∧ (10 : ℕ) ≠ 2 :=
  ⟨rfl, rfl, by decide⟩

/-- C3 (amended): flat aggregation yields
`frequency-patches x (sum of per-chunk time-patches)` rows, each one
token (embedding-width) wide; stacked aggregation yields
`sum of per-chunk time-patches` rows, each `frequency-patches` tokens
(embedding-width x frequency-patches) wide; and for the default
configuration (80 mel bins, 16 x 16 patches, embedding width 768) the
stacked `feature_d` is `768 * 5 = 3840`. -/
theorem C3_aggregation_shapes {α β : Type} (bk : Backbone α β) (z : List α)
    (x : List (List α)) (rowsF rowsS : List (List β))
    (hpe : bk.posEmbed.length = 1 + gridF bk * gridT bk) (hf : 0 < gridF bk)
    (hu : 0 < bk.imgTime) (hp : 0 < bk.patchT) (hd : bk.patchT ∣ bk.imgTime)
    (hx : x ≠ [])
    (hF : encode_lms bk z true false x = Except.ok rowsF)
    (hS : encode_lms bk z false false x = Except.ok rowsS) :
    rowsF.length = gridF bk * ((mduoChunks z bk.patchT bk.imgTime x).map
        (fun c => c.length / bk.patchT)).sum
    ∧ (∀ r ∈ rowsF, r.length = 1)
    ∧ rowsS.length = ((mduoChunks z bk.patchT bk.imgTime x).map
        (fun c => c.length / bk.patchT)).sum
    ∧ (∀ r ∈ rowsS, r.length = gridF bk)
    ∧ feature_d false 768 80 16 = 768 * 5 := by
  have hw := mduoChunks_width z bk.patchT bk.imgTime hu hp hd x hx
  have hcond : ∀ c ∈ mduoChunks z bk.patchT bk.imgTime x,
      bk.patchT ≤ c.length ∧ c.length / bk.patchT ≤ gridT bk := by
    intro c hc
    obtain ⟨h1, h2⟩ := hw c hc
    exact ⟨h1, Nat.div_le_div_right h2⟩
  have hne := mduoChunks_ne_nil z bk.patchT bk.imgTime hu x hx
  simp only [encode_lms, hne, Bool.false_eq_true, if_false] at hF hS
  obtain ⟨hF1, hF2⟩ := encodeChunks_length bk true hpe hf _ rowsF hcond hF
  obtain ⟨hS1, hS2⟩ := encodeChunks_length bk false hpe hf _ rowsS hcond hS
  refine ⟨?_, ?_, ?_, ?_, by decide⟩
  · rw [hF1]
    simp only [if_true]
    exact List.sum_map_mul_left _ _ _
  · intro r hr
    simpa using hF2 r hr
  · rw [hS1]
    simp
  · intro r hr
    simpa using hS2 r hr

/-- Closed-form instance discharging the hypotheses of
`C3_aggregation_shapes` on the concrete backbone and a 32-frame
input. -/
theorem C3_witness :
    (encode_lms (testB 32) [] true false (xtest 32)
        = Except.ok (List.replicate 10 [0])
      ∧ encode_lms (testB 32) [] false false (xtest 32)
        = Except.ok (List.replicate 2 (List.replicate 5 0)))
    ∧ (List.replicate 10 ([0] : List ℕ)).length
        = gridF (testB 32) * ((mduoChunks ([] : List ℕ) (testB 32).patchT
            (testB 32).imgTime (xtest 32)).map
              (fun c => c.length / (testB 32).patchT)).sum :=
  ⟨⟨rfl, rfl⟩,
    (C3_aggregation_shapes (testB 32) [] (xtest 32) (List.replicate 10 [0])
      (List.replicate 2 (List.replicate 5 0)) (by decide) (by decide)
      (by decide) (by decide) (by decide) (by decide) rfl rfl).1⟩

/-- C4 as stated ("fails with a ConfigurationError if and only if
`unit_frames` is not a multiple of `patch_frames`") is false on the
code: no `ConfigurationError` exists anywhere in the source and
nothing validates the divisibility.  With `unit_frames = 24`,
`patch_frames = 16` (not a multiple) and a 24-frame input, encoding
completes without any error, silently truncating the 8 trailing
frames in the patch convolution. -/
theorem C4_cex :
    ¬ ((16 : ℕ) ∣ 24)
    ∧ (encode_lms (testB 24) [] true false (xtest 24)).isOk = true :=
  ⟨by decide, rfl⟩

/-- C4 (amended): the chunking/padding logic raises no error under the
precondition that `unit_frames` is a positive multiple of
`patch_frames`, for every nonempty input; no `ConfigurationError` (or
any other validation error) is ever raised when the precondition
fails. -/
theorem C4_no_error {α β : Type} (bk : Backbone α β) (z : List α)
    (flat avg : Bool) (x : List (List α)) (hu : 0 < bk.imgTime)
    (hp : 0 < bk.patchT) (hd : bk.patchT ∣ bk.imgTime) (hx : x ≠ []) :
    (encode_lms bk z flat avg x).isOk = true := by
  have hw := mduoChunks_width z bk.patchT bk.imgTime hu hp hd x hx
  obtain ⟨rows, hrows⟩ := encodeChunks_ok bk flat avg _ (fun c hc => (hw c hc).1)
  have hne := mduoChunks_ne_nil z bk.patchT bk.imgTime hu x hx
  simp [encode_lms, hne, hrows, Except.isOk, Except.toBool]

/-- Closed-form instance discharging the hypotheses of `C4_no_error`
on the concrete backbone and a 32-frame input. -/
theorem C4_witness :
    (0 < (testB 32).imgTime ∧ 0 < (testB 32).patchT
      ∧ (testB 32).patchT ∣ (testB 32).imgTime ∧ xtest 32 ≠ [])
    ∧ (encode_lms (testB 32) [] false false (xtest 32)).isOk = true :=
  ⟨⟨by decide, by decide, by decide, by decide⟩,
    C4_no_error (testB 32) [] false false (xtest 32) (by decide) (by decide)
      (by decide) (by decide)⟩

/-- C6: the class token prepended by `forward_encoder` at index 0 is
discarded before reassembly: the per-chunk row construction is
insensitive to the token at index 0, each chunk's `1 + f * t` encoder
tokens contribute rows built only from the `f * t` patch tokens at
index 1 onward, and the per-item row count sums the per-chunk patch
rows -- in both flat and stacked modes. -/
theorem C6_cls_token_discarded {α β : Type} (bk : Backbone α β) (z : List α)
    (flat : Bool) (x : List (List α)) (rows : List (List β))
    (hpe : bk.posEmbed.length = 1 + gridF bk * gridT bk) (hf : 0 < gridF bk)
    (hu : 0 < bk.imgTime) (hp : 0 < bk.patchT) (hd : bk.patchT ∣ bk.imgTime)
    (hx : x ≠ []) (h : encode_lms bk z flat false x = Except.ok rows) :
    (∀ (a b : β) (l : List β),
        chunkRows bk flat false (a :: l) = chunkRows bk flat false (b :: l))
    ∧ rows.length = ((mduoChunks z bk.patchT bk.imgTime x).map (fun c =>
        if flat then gridF bk * (c.length / bk.patchT)
        else c.length / bk.patchT)).sum
    ∧ ∀ c ∈ mduoChunks z bk.patchT bk.imgTime x,
        ∃ l, forward_encoder bk c = Except.ok l
          ∧ l.length = 1 + gridF bk * (c.length / bk.patchT)
          ∧ chunkRows bk flat false l
              = chunkRows bk flat false (bk.clsToken :: l.drop 1) := by
  have hw := mduoChunks_width z bk.patchT bk.imgTime hu hp hd x hx
  have hcond : ∀ c ∈ mduoChunks z bk.patchT bk.imgTime x,
      bk.patchT ≤ c.length ∧ c.length / bk.patchT ≤ gridT bk := by
    intro c hc
    obtain ⟨h1, h2⟩ := hw c hc
    exact ⟨h1, Nat.div_le_div_right h2⟩
  have hne := mduoChunks_ne_nil z bk.patchT bk.imgTime hu x hx
  simp only [encode_lms, hne, Bool.false_eq_true, if_false] at h
  refine ⟨fun a b l => chunkRows_head_indep bk flat false a b l, ?_, ?_⟩
  · exact (encodeChunks_length bk flat hpe hf _ rows hcond h).1
  · intro c hc
    obtain ⟨hc1, hc2⟩ := hcond c hc
    obtain ⟨l, hl, hlen⟩ := forward_encoder_ok bk c hpe hf hc1 hc2
    refine ⟨l, hl, hlen, ?_⟩
    rcases l with _ | ⟨a, l'⟩
    · rw [List.length_nil] at hlen
      omega
    · exact chunkRows_head_indep bk flat false a bk.clsToken l'

/-- Closed-form instance discharging the hypotheses of
`C6_cls_token_discarded` on the concrete backbone (stacked mode). -/
theorem C6_witness :
    encode_lms (testB 32) [] false false (xtest 32)
        = Except.ok (List.replicate 2 (List.replicate 5 0))
    ∧ (List.replicate 2 (List.replicate 5 (0 : ℕ))).length
        = ((mduoChunks ([] : List ℕ) (testB 32).patchT (testB 32).imgTime
            (xtest 32)).map (fun c =>
              if false then gridF (testB 32) * (c.length / (testB 32).patchT)
              else c.length / (testB 32).patchT)).sum :=
  ⟨rfl,
    (C6_cls_token_discarded (testB 32) [] false (xtest 32)
      (List.replicate 2 (List.replicate 5 0)) (by decide) (by decide)
      (by decide) (by decide) (by decide) (by decide) rfl).2.1⟩

/-- C7: for a chunk shorter than the trained window, the positional
embedding is truncated to the chunk's actual patch grid -- it has
exactly `f * t` entries and cell `(fi, ti)` receives the full-window
entry `pe[fi * T + ti]` -- while the chunk itself is not padded (the
encoder output has `1 + f * t` tokens); a chunk of exactly the
trained window uses the full positional embedding unchanged. -/
theorem C7_pos_truncation {α β : Type} (bk : Backbone α β)
    (c : List (List α)) (d : β)
    (hpe : bk.posEmbed.length = 1 + gridF bk * gridT bk) (hf : 0 < gridF bk)
    (hc : bk.patchT ≤ c.length) (ht : c.length / bk.patchT ≤ gridT bk) :
    (c.length / bk.patchT < gridT bk →
      (posFor (bk.posEmbed.drop 1) (gridF bk)
          (gridF bk * (c.length / bk.patchT))).length
        = gridF bk * (c.length / bk.patchT)
      ∧ ∀ fi ti, fi < gridF bk → ti < c.length / bk.patchT →
          (posFor (bk.posEmbed.drop 1) (gridF bk)
              (gridF bk * (c.length / bk.patchT))).getD
              (fi * (c.length / bk.patchT) + ti) d
            = (bk.posEmbed.drop 1).getD (fi * gridT bk + ti) d)
    ∧ (c.length / bk.patchT = gridT bk →
        posFor (bk.posEmbed.drop 1) (gridF bk)
            (gridF bk * (c.length / bk.patchT))
          = bk.posEmbed.drop 1)
    ∧ ∃ l, forward_encoder bk c = Except.ok l
        ∧ l.length = 1 + gridF bk * (c.length / bk.patchT) := by
  have hpel : (bk.posEmbed.drop 1).length = gridF bk * gridT bk := by
    rw [List.length_drop, hpe]; omega
  refine ⟨?_, ?_, forward_encoder_ok bk c hpe hf hc ht⟩
  · intro hlt
    exact ⟨posFor_length _ _ _ _ hf hpel (le_of_lt hlt),
      fun fi ti hfi hti => posFor_getD _ _ _ _ d hf hpel hlt fi ti hfi hti⟩
  · intro heq
    unfold posFor
    rw [if_neg (by rw [hpel, heq]; omega)]

/-- Closed-form instance discharging the hypotheses of
`C7_pos_truncation` on the concrete backbone with a 16-frame chunk
(one time patch, trained window of two). -/
theorem C7_witness :
    ((testB 32).posEmbed.length = 1 + gridF (testB 32) * gridT (testB 32)
      ∧ (testB 32).patchT ≤ (xtest 16).length
      ∧ (xtest 16).length / (testB 32).patchT ≤ gridT (testB 32))
    ∧ ∃ l, forward_encoder (testB 32) (xtest 16) = Except.ok l
        ∧ l.length = 1 + gridF (testB 32)
            * ((xtest 16).length / (testB 32).patchT) :=
  ⟨⟨by decide, by decide, by decide⟩,
    (C7_pos_truncation (testB 32) (xtest 16) 0 (by decide) (by decide)
      (by decide) (by decide)).2.2⟩

/-- C8: the timestamps of `get_timestamp_embeddings` are uniformly
spaced: one identical row is repeated for every item of the batch,
entry `i` equals `i * step` where `step` is the audio duration in
milliseconds divided by the output row count, the first entry is 0,
and consecutive entries differ by the constant `step`. -/
theorem C8_uniform_timestamps {γ : Type} (sr : ℚ) (batch_audio : List (List ℚ))
    (x : List (List γ)) (hx : 0 < (x.headD []).length) :
    get_timestamps sr batch_audio x
        = List.replicate batch_audio.length
            (ts_row sr (batch_audio.headD []).length (x.headD []).length)
    ∧ (∀ i, i < (x.headD []).length →
        (ts_row sr (batch_audio.headD []).length (x.headD []).length).getD i 0
          = ((batch_audio.headD []).length : ℚ) / sr * 1000
              / ((x.headD []).length : ℚ) * (i : ℚ))
    ∧ (ts_row sr (batch_audio.headD []).length (x.headD []).length).getD 0 0 = 0
    ∧ ∀ i, i + 1 < (x.headD []).length →
        (ts_row sr (batch_audio.headD []).length (x.headD []).length).getD
            (i + 1) 0
          - (ts_row sr (batch_audio.headD []).length (x.headD []).length).getD
            i 0
          = ((batch_audio.headD []).length : ℚ) / sr * 1000
              / ((x.headD []).length : ℚ) := by
  have hget : ∀ i, i < (x.headD []).length →
      (ts_row sr (batch_audio.headD []).length (x.headD []).length).getD i 0
        = ((batch_audio.headD []).length : ℚ) / sr
            / ((x.headD []).length : ℚ) * 1000 * (i : ℚ) := by
    intro i hi
    unfold ts_row
    have hlen : i < ((List.range (x.headD []).length).map
        (fun j : ℕ => ((batch_audio.headD []).length : ℚ) / sr
          / ((x.headD []).length : ℚ) * 1000 * (j : ℚ))).length := by
      rw [List.length_map, List.length_range]; exact hi
    rw [List.getD_eq_getElem _ _ hlen]
    simp
  refine ⟨rfl, ?_, ?_, ?_⟩
  · intro i hi
    rw [hget i hi]
    ring
  · rw [hget 0 hx]
    simp
  · intro i hi
    rw [hget _ hi, hget i (by omega)]
    push_cast
    ring

/-- Closed-form instance discharging the hypothesis of
`C8_uniform_timestamps` on a concrete one-item batch with two output
rows. -/
theorem C8_witness :
    0 < (([[0, 0]] : List (List ℕ)).headD []).length
    ∧ (ts_row 16000 (([[1, 2, 3, 4]] : List (List ℚ)).headD []).length
        (([[0, 0]] : List (List ℕ)).headD []).length).getD 0 0 = 0 :=
  ⟨by decide,
    (C8_uniform_timestamps 16000 [[1, 2, 3, 4]] ([[0, 0]] : List (List ℕ))
      (by decide)).2.2.1⟩

/-- C10: with the default `extract_kws` (key `"pooled"` absent or
true), `MDuo.forward` mean-pools the encoded sequence over time and
returns one vector of width `feature_d` per item, not a time-resolved
sequence; with `pooled = False` the time-resolved sequence is returned
unchanged. -/
theorem C10_forward_pooled (extract_kws : List (String × Bool))
    (x : List (List (List ℚ))) (D : ℕ)
    (hD : ∀ it ∈ x, ∀ r ∈ it, r.length = D)
    (hne : ∀ it ∈ x, it ≠ []) :
    ((extract_kws.lookup "pooled").getD true = true →
        MDuo_forward extract_kws x = FwdOut.pooled (x.map meanTime)
        ∧ (x.map meanTime).length = x.length
        ∧ ∀ v ∈ x.map meanTime, v.length = D)
    ∧ ((extract_kws.lookup "pooled").getD true = false →
        MDuo_forward extract_kws x = FwdOut.seq x)
    ∧ MDuo_forward [] x = FwdOut.pooled (x.map meanTime) := by
  refine ⟨?_, ?_, ?_⟩
  · intro hk
    refine ⟨by simp [MDuo_forward, hk], by simp, ?_⟩
    intro v hv
    rw [List.mem_map] at hv
    obtain ⟨it, hit, hv⟩ := hv
    subst hv
    unfold meanTime
    rw [List.length_map, List.length_range]
    rcases it with _ | ⟨r0, rest⟩
    · exact absurd rfl (hne [] hit)
    · simp only [List.headD_cons]
      exact hD _ hit r0 (by simp)
  · intro hk
    simp [MDuo_forward, hk]
  · simp [MDuo_forward]

/-- Closed-form instance discharging the hypotheses of
`C10_forward_pooled` on a one-item batch with one row of width 2. -/
theorem C10_witness :
    ((∀ it ∈ ([[[1, 2]]] : List (List (List ℚ))), ∀ r ∈ it, r.length = 2)
      ∧ ∀ it ∈ ([[[1, 2]]] : List (List (List ℚ))), it ≠ [])
    ∧ MDuo_forward [] ([[[1, 2]]] : List (List (List ℚ)))
        = FwdOut.pooled (([[[1, 2]]] : List (List (List ℚ))).map meanTime) :=
  ⟨⟨by decide, by decide⟩,
    (C10_forward_pooled [] ([[[1, 2]]] : List (List (List ℚ))) 2 (by decide)
      (by decide)).2.2⟩

end Mduo
